import Mathlib

/-!
Shallow embedding of `pyaldata/data_cleaning.py` (the Table Normalizer module).

A table is an ordered association list of named columns; each column is the
ordered list of its per-trial (per-row) cell values.  A cell is a scalar
number (Python/numpy numeric scalars, modelled as rationals), a string, or a
numeric n-dimensional array (shape plus row-major data, entries modelled as
rationals).  Operations that the Python code lets raise an exception are
modelled as `Option`-valued functions returning `none` on the raising inputs;
`clean_integer_fields`, whose body swallows all per-column exceptions, is
total.

Rational arithmetic is written with the explicit normalised-fraction
constructors (`qsub`, `qadd`, `qmul`, `qabs`) rather than the ambient field
operations, so that every definition evaluates by kernel reduction on concrete
inputs; the lemmas `qsub_eq`, `qadd_eq`, `qmul_eq` and `qabs_eq` identify them
with `a - b`, `a + b`, `a * b` and `|a|`.  String predicates are likewise
expressed on the underlying character lists.
-/

/-- Rational subtraction `a - b`, written as a normalised fraction. -/
def qsub (a b : ℚ) : ℚ := mkRat (a.num * b.den - b.num * a.den) (a.den * b.den)

/-- Rational addition `a + b`, written as a normalised fraction. -/
def qadd (a b : ℚ) : ℚ := mkRat (a.num * b.den + b.num * a.den) (a.den * b.den)

/-- Rational multiplication `a * b`, written as a normalised fraction. -/
def qmul (a b : ℚ) : ℚ := mkRat (a.num * b.num) (a.den * b.den)

/-- Rational absolute value `|a|`, by the sign of the numerator. -/
def qabs (a : ℚ) : ℚ := if a.num < 0 then -a else a

/-- `s.startswith(pre)`: the characters of `pre` are a prefix of those of
`s`. -/
def strStartsWith (s pre : String) : Bool := pre.data.isPrefixOf s.data

/-- `s.endswith(suf)`: the characters of `suf` are a suffix of those of
`s`. -/
def strEndsWith (s suf : String) : Bool := suf.data.isSuffixOf s.data

/-- ASCII lower-casing of one character, as `str.lower` acts on the ASCII
field names the module deals with. -/
def charLower (c : Char) : Char :=
  if 65 ≤ c.toNat ∧ c.toNat ≤ 90 then Char.ofNat (c.toNat + 32) else c

/-- `'label' in field.lower()`: case-insensitive substring test. -/
def containsLabel (f : String) : Bool :=
  decide ("label".data <:+: f.data.map charLower)

/-- A numpy ndarray: a shape and the row-major flattened data.  A well-formed
array stores `shape.prod` entries; the transforms below never depend on
well-formedness except where noted. -/
structure NDArray where
  shape : List Nat
  data : List ℚ
deriving DecidableEq

/-- `arr.ndim`: the number of axes. -/
def NDArray.ndim (a : NDArray) : Nat := a.shape.length

/-- `arr.reshape(1, -1)`: a 2-D row vector holding the same data; the inferred
second dimension is the number of stored elements. -/
def NDArray.reshapeRow (a : NDArray) : NDArray := ⟨[1, a.data.length], a.data⟩

/-- `arr.item()` on a 0-D array: the sole stored element (a well-formed 0-D
array stores exactly one; the default is unreachable for well-formed input). -/
def NDArray.item (a : NDArray) : ℚ := a.data.headD 0

/-- A cell of the table: a numeric scalar, a string, or an ndarray. -/
inductive Value where
  | num (q : ℚ)
  | str (s : String)
  | arr (a : NDArray)
deriving DecidableEq

/-- `isinstance(v, np.ndarray)`. -/
def Value.isArr : Value → Bool
  | .arr _ => true
  | _ => false

/-- An ndarray with `ndim == 0`. -/
def Value.isArr0d : Value → Bool
  | .arr a => a.ndim == 0
  | _ => false

/-- A numeric scalar cell. -/
def Value.isNum : Value → Bool
  | .num _ => true
  | _ => false

/-- `isinstance(v, str)`. -/
def Value.isStr : Value → Bool
  | .str _ => true
  | _ => false

/-- A table in trial_data format: ordered named columns, each an ordered list
of per-row cells (rows aligned across columns by position). -/
abbrev Table := List (String × List Value)

/-- The ordered list of column names. -/
def colNames (t : Table) : List String := t.map Prod.fst

/-- The per-column row counts, in column order. -/
def colLens (t : Table) : List Nat := t.map (fun c => c.2.length)

/-- Evaluate `f` on every element of a Python list comprehension, propagating
a raised exception (`none`) from any element. -/
def mapO (f : Value → Option Value) : List Value → Option (List Value)
  | [] => some []
  | v :: vs =>
    match f v, mapO f vs with
    | some w, some ws => some (w :: ws)
    | _, _ => none

/-- `idx - 1` on one cell: subtracting 1 from a numeric scalar, elementwise
subtraction on an ndarray, and a `TypeError` (none) on a string. -/
def backshiftCell : Value → Option Value
  | .num q => some (.num (qsub q 1))
  | .arr a => some (.arr ⟨a.shape, a.data.map (fun x => qsub x 1)⟩)
  | .str _ => none

/-- The shared loop shape of `backshift_idx_fields` and
`clean_0d_array_fields`: rewrite the cells of every column whose name
satisfies `p` by the comprehension `[f cell for cell in column]`, leaving
the remaining columns untouched and propagating a raised exception. -/
def mapColsO (p : String → Bool) (f : Value → Option Value) : Table → Option Table
  | [] => some []
  | (name, col) :: rest =>
    match (if p name then mapO f col else some col), mapColsO p f rest with
    | some c, some r => some ((name, c) :: r)
    | _, _ => none

/-- `backshift_idx_fields`: for every column whose name starts with `idx`,
replace the column by `[idx - 1 for idx in trial_data[col]]`; all other
columns are untouched. -/
def backshift_idx_fields : Table → Option Table :=
  mapColsO (fun name => strStartsWith name "idx") backshiftCell

/-- One cell of `clean_0d_array_fields`: `arr if arr.ndim == 2 else
arr.reshape(1, -1)`.  A non-array cell has no `ndim` attribute, so the lookup
raises (`none`) and propagates. -/
def ensure2dCell : Value → Option Value
  | .arr a => some (if a.ndim == 2 then .arr a else .arr a.reshapeRow)
  | _ => none

/-- `clean_0d_array_fields`: for every column whose name ends with `_spikes`,
replace each cell by itself when it is a 2-D array and by its
`reshape(1, -1)` row vector otherwise; all other columns are untouched. -/
def clean_0d_array_fields : Table → Option Table :=
  mapColsO (fun name => strEndsWith name "_spikes") ensure2dCell

/-- `arr.item()` where checked to be a 0-D array; identity on other cells
(unreachable under the guards of `collapseCol`). -/
def unwrapCell : Value → Value
  | .arr a => .num a.item
  | v => v

/-- One column of `clean_0d_spike_fields`: if every cell is an ndarray and
every one of those arrays is 0-D, replace each cell by `arr.item()`;
otherwise leave the column entirely unmodified. -/
def collapseCol (col : List Value) : List Value :=
  if col.all Value.isArr then
    if col.all Value.isArr0d then col.map unwrapCell else col
  else col

/-- `clean_0d_spike_fields`: the all-or-nothing 0-D collapse applied to every
column. -/
def clean_0d_spike_fields (t : Table) : Table :=
  t.map (fun c => (c.1, collapseCol c.2))

/-- Truncation toward zero, the C-style float-to-int conversion numpy uses. -/
def truncQ (q : ℚ) : ℤ := if 0 ≤ q then ⌊q⌋ else ⌈q⌉

/-- Reduce an integer into the 32-bit two's-complement range. -/
def i32wrap (z : ℤ) : ℤ := (z + 2 ^ 31) % 2 ^ 32 - 2 ^ 31

/-- `np.int32` on one numeric value: truncate toward zero and wrap into the
signed 32-bit range, read back as a number. -/
def i32OfQ (q : ℚ) : ℚ := (i32wrap (truncQ q) : ℤ)

/-- `np.allclose` on a pair of scalars: `|a - b| <= atol + rtol * |b|` with
numpy's default tolerances `rtol = 1e-05`, `atol = 1e-08`. -/
def isClose (a b : ℚ) : Bool :=
  decide (qabs (qsub a b) ≤ qadd (mkRat 1 (10 ^ 8)) (qmul (mkRat 1 (10 ^ 5)) (qabs b)))

/-- `np.int32(x)` on one cell of an array-classified column: elementwise cast
of an ndarray, scalar cast of a numeric scalar, and a raised conversion error
(`none`) on a non-numeric string.  (numpy would parse a purely numeric string
here, but the subsequent `allclose` against the original string raises, so the
column outcome — unchanged and recorded as failed — is the same.) -/
def i32CastCell : Value → Option Value
  | .num q => some (.num (i32OfQ q))
  | .arr a => some (.arr ⟨a.shape, a.data.map i32OfQ⟩)
  | .str _ => none

/-- `np.allclose(cast, orig)` for one row: the cast always has the shape of
the original, so the elementwise comparison never broadcasts. -/
def valueClose : Value → Value → Bool
  | .num a, .num b => isClose a b
  | .arr a, .arr b => (a.data.zip b.data).all (fun p => isClose p.1 p.2)
  | _, _ => false

/-- `all(np.allclose(int_arr, arr) for ...)` over the rows of a column. -/
def allPairsClose (casted col : List Value) : Bool :=
  (casted.zip col).all (fun p => valueClose p.1 p.2)

/-- `np.int32` applied to a numeric scalar cell (used for the whole-column
cast of a scalar column, where every cell is numeric). -/
def i32CastNum (v : Value) : Value :=
  match v with
  | .num q => .num (i32OfQ q)
  | v => v

/-- The body of `clean_integer_fields` for one column, inside its
`try/except`: returns the (possibly replaced) column and whether an exception
was swallowed, in which case the column is recorded in `bad_fields`.
Raising reads: `df[field].values[0]` on an empty column (IndexError),
`np.int32` on a string cell of an array-classified column, and
`np.int32(df[field])` on a scalar-classified column containing a non-scalar
cell. -/
def processIntColumn (col : List Value) : List Value × Bool :=
  match col[0]? with
  | none => (col, true)
  | some (Value.arr _) =>
    match mapO i32CastCell col with
    | none => (col, true)
    | some casted =>
      if allPairsClose casted col then (casted, false) else (col, false)
  | some (Value.str _) => (col, false)
  | some (Value.num _) =>
    if col.all Value.isNum then
      let casted := col.map i32CastNum
      if allPairsClose casted col then (casted, false) else (col, false)
    else (col, true)

/-- The per-column loop of `clean_integer_fields`: the transformed columns,
and for each column (positionally) whether it was appended to `bad_fields`. -/
def cleanIntPairs : Table → Table × List (String × Bool)
  | [] => ([], [])
  | (name, col) :: rest =>
    let p := processIntColumn col
    let r := cleanIntPairs rest
    ((name, p.1) :: r.1, (name, p.2) :: r.2)

/-- The `bad_fields` list as first accumulated: the names of the columns whose
processing raised, in column order. -/
def bad_fields_raw (t : Table) : List String :=
  ((cleanIntPairs t).2.filter (fun p => p.2)).map Prod.fst

/-- `bad_fields` after the label filter, the list the diagnostic line names. -/
def bad_fields (t : Table) : List String :=
  (bad_fields_raw t).filter (fun f => !containsLabel f)

/-- `clean_integer_fields`: the transformed table, together with the printed
diagnostic modelled by the list of field names it carries — `some names` when
the single line `fields: ... could not be converted to int.` is printed and
`none` when nothing is printed. -/
def clean_integer_fields (t : Table) : Table × Option (List String) :=
  ((cleanIntPairs t).1, if bad_fields t = [] then none else some (bad_fields t))

/-! ### Cell storage and the `copy_td` policy (for the non-mutation
contract).

The module's four transforms are wrapped by the decorator `utils.copy_td`,
whose code lives outside this module.  To state the aliasing contract we give
tables an explicit cell store: a table is then a set of named columns of cell
*addresses*, and mutation is modelled as writing the store. -/

/-- A heap of cell storage: cell values addressed by position; address `a`
holds `s.getD a (Value.num 0)`.  Fresh cells are allocated by appending. -/
abbrev Store := List Value

/-- A stored table: each column is a name paired with the addresses of its
cells. -/
abbrev STable := List (String × List Nat)

/-- All cell addresses a stored table points at. -/
def addrsOf (t : STable) : List Nat := (t.map (fun c => c.2)).flatten

/-- Read one column's values out of the store. -/
def readCol (s : Store) (addrs : List Nat) : List Value :=
  addrs.map (fun a => s.getD a (Value.num 0))

/-- Read a whole stored table as a value table. -/
def readTable (s : Store) (t : STable) : Table :=
  t.map (fun c => (c.1, readCol s c.2))

/-- Allocate fresh cells holding the given value table, column by column. -/
def allocTable (s : Store) : Table → Store × STable
  | [] => (s, [])
  | (name, col) :: rest =>
    let addrs := (List.range col.length).map (fun i => i + s.length)
    let r := allocTable (s ++ col) rest
    (r.1, (name, addrs) :: r.2)

/-- Modelled from the spec: `utils.copy_td`, the decorator applied by every
transform, is outside this module; per the spec it makes the transform
"operate on a full independent copy of the input table (deep enough that
subsequent per-cell reassignment does not alias the original's cell
storage)".  Every cell value is copied into freshly allocated storage and the
body then runs on the copy. -/
def copy_td (s : Store) (t : STable) : Store × STable :=
  allocTable s (readTable s t)

/-- Write a column of values at the given addresses. -/
def writeCol (s : Store) (addrs : List Nat) (vals : List Value) : Store :=
  (addrs.zip vals).foldl (fun st p => st.set p.1 p.2) s

/-- Write a value table at a stored table's addresses — the per-column
`df[col] = ...` reassignments of a transform body, performed on the copy. -/
def writeTable (s : Store) (t : STable) (vals : Table) : Store :=
  (t.zip vals).foldl (fun st p => writeCol st p.1.2 p.2.2) s

/-- Run a transform body under the `copy_td` policy: copy the caller's table
into fresh storage, run the pure body on the copy's values, store the output
at the copy's addresses, and return the copy's table; `none` propagates a
raised exception out of the body. -/
def runCopied (body : Table → Option Table) (s : Store) (t : STable) :
    Option (Store × STable) :=
  let c := copy_td s t
  (body (readTable c.1 c.2)).map (fun out => (writeTable c.1 c.2 out, c.2))

/-- `backshift_idx_fields` on stored tables, under `copy_td`. -/
def st_backshift_idx_fields (s : Store) (t : STable) : Option (Store × STable) :=
  runCopied backshift_idx_fields s t

/-- `clean_0d_array_fields` on stored tables, under `copy_td`. -/
def st_clean_0d_array_fields (s : Store) (t : STable) : Option (Store × STable) :=
  runCopied clean_0d_array_fields s t

/-- `clean_0d_spike_fields` on stored tables, under `copy_td`. -/
def st_clean_0d_spike_fields (s : Store) (t : STable) : Option (Store × STable) :=
  runCopied (fun tb => some (clean_0d_spike_fields tb)) s t

/-- `clean_integer_fields` on stored tables, under `copy_td`. -/
def st_clean_integer_fields (s : Store) (t : STable) : Option (Store × STable) :=
  runCopied (fun tb => some (clean_integer_fields tb).1) s t

/-- A stored table is valid in a store when every address points into it. -/
abbrev WFst (s : Store) (t : STable) : Prop := ∀ a ∈ addrsOf t, a < s.length

/-- The non-mutation contract of one store transform: whenever it returns,
the caller's original table still reads exactly as before (indeed the whole
original store region is untouched), and the returned table's cell storage is
disjoint from the original table's, so reassigning cells of the returned
table cannot alias the original. -/
def PreservesCaller (f : Store → STable → Option (Store × STable)) : Prop :=
  ∀ s t s' t', WFst s t → f s t = some (s', t') →
    readTable s' t = readTable s t ∧
    (∀ a ∈ addrsOf t', ∀ b ∈ addrsOf t, a ≠ b)

/-- The shape contract of C9 between an input table and an output table: the
ordered column names coincide, the per-column row counts coincide, and every
output column is an elementwise `map` of the corresponding input column — the
cell at row `i` of the output is computed from the cell at row `i` of the
input, so the row count and the row order are unchanged and only cell values
differ. -/
def PreservesShape (t t' : Table) : Prop :=
  colNames t' = colNames t ∧ colLens t' = colLens t ∧
  ∀ j : Nat, ∀ name : String, ∀ col : List Value, t[j]? = some (name, col) →
    ∃ col' : List Value, ∃ g : Value → Value,
      t'[j]? = some (name, col') ∧ col' = col.map g

/-! ### Bridging lemmas: the reducible fraction arithmetic is the field
arithmetic of `ℚ`. -/

theorem qsub_eq (a b : ℚ) : qsub a b = a - b := by
  have ha : (a.den : ℚ) ≠ 0 := Nat.cast_ne_zero.mpr a.den_nz
  have hb : (b.den : ℚ) ≠ 0 := Nat.cast_ne_zero.mpr b.den_nz
  have ea : (a.num : ℚ) = a * a.den := (div_eq_iff ha).mp (Rat.num_div_den a)
  have eb : (b.num : ℚ) = b * b.den := (div_eq_iff hb).mp (Rat.num_div_den b)
  rw [qsub, Rat.mkRat_eq_div]
  push_cast
  rw [ea, eb, div_eq_iff (mul_ne_zero ha hb)]
  ring

theorem qadd_eq (a b : ℚ) : qadd a b = a + b := by
  have ha : (a.den : ℚ) ≠ 0 := Nat.cast_ne_zero.mpr a.den_nz
  have hb : (b.den : ℚ) ≠ 0 := Nat.cast_ne_zero.mpr b.den_nz
  have ea : (a.num : ℚ) = a * a.den := (div_eq_iff ha).mp (Rat.num_div_den a)
  have eb : (b.num : ℚ) = b * b.den := (div_eq_iff hb).mp (Rat.num_div_den b)
  rw [qadd, Rat.mkRat_eq_div]
  push_cast
  rw [ea, eb, div_eq_iff (mul_ne_zero ha hb)]
  ring

theorem qmul_eq (a b : ℚ) : qmul a b = a * b := by
  have ha : (a.den : ℚ) ≠ 0 := Nat.cast_ne_zero.mpr a.den_nz
  have hb : (b.den : ℚ) ≠ 0 := Nat.cast_ne_zero.mpr b.den_nz
  have ea : (a.num : ℚ) = a * a.den := (div_eq_iff ha).mp (Rat.num_div_den a)
  have eb : (b.num : ℚ) = b * b.den := (div_eq_iff hb).mp (Rat.num_div_den b)
  rw [qmul, Rat.mkRat_eq_div]
  push_cast
  rw [ea, eb, div_eq_iff (mul_ne_zero ha hb)]
  ring

theorem qabs_eq (a : ℚ) : qabs a = |a| := by
  rw [qabs]
  by_cases h : a.num < 0
  · rw [if_pos h, abs_of_neg]
    have := (Rat.num_nonneg (q := a)).not
    exact lt_of_not_ge fun hge => (not_lt.mpr (Rat.num_nonneg.mpr hge)) h
  · rw [if_neg h, abs_of_nonneg]
    exact Rat.num_nonneg.mp (not_lt.mp h)

theorem isClose_eq (a b : ℚ) :
    isClose a b = decide (|a - b| ≤ 1 / 10 ^ 8 + 1 / 10 ^ 5 * |b|) := by
  have h8 : (mkRat 1 (10 ^ 8) : ℚ) = 1 / 10 ^ 8 := by
    rw [Rat.mkRat_eq_div]; norm_num
  have h5 : (mkRat 1 (10 ^ 5) : ℚ) = 1 / 10 ^ 5 := by
    rw [Rat.mkRat_eq_div]; norm_num
  rw [isClose, qsub_eq, qadd_eq, qmul_eq, qabs_eq, qabs_eq, h8, h5]

/-! ### Generic lemmas about `mapO`. -/

theorem mapO_length {f : Value → Option Value} :
    ∀ {l l' : List Value}, mapO f l = some l' → l'.length = l.length := by
  intro l
  induction l with
  | nil => intro l' h; simp [mapO] at h; simp [← h]
  | cons v vs ih =>
    intro l' h
    simp only [mapO] at h
    cases hv : f v with
    | none => rw [hv] at h; exact absurd h (by simp)
    | some w =>
      rw [hv] at h
      cases hvs : mapO f vs with
      | none => rw [hvs] at h; exact absurd h (by simp)
      | some ws =>
        rw [hvs] at h
        simp at h
        simp [← h, ih hvs]

theorem mapO_getElem {f : Value → Option Value} :
    ∀ {l l' : List Value}, mapO f l = some l' →
      ∀ i : Nat, ∀ v : Value, l[i]? = some v → l'[i]? = f v := by
  intro l
  induction l with
  | nil => intro l' _ i v hv; simp at hv
  | cons x xs ih =>
    intro l' h i v hv
    simp only [mapO] at h
    cases hx : f x with
    | none => rw [hx] at h; exact absurd h (by simp)
    | some w =>
      rw [hx] at h
      cases hxs : mapO f xs with
      | none => rw [hxs] at h; exact absurd h (by simp)
      | some ws =>
        rw [hxs] at h
        simp at h
        cases i with
        | zero => simp at hv; simp [← h, ← hv, hx]
        | succ n => simp at hv; simp [← h]; exact ih hxs n v hv

/-! ### Generic lemmas about `mapColsO`. -/

theorem mapColsO_spec {p : String → Bool} {f : Value → Option Value} :
    ∀ {t t' : Table}, mapColsO p f t = some t' →
      ∀ j : Nat, ∀ name : String, ∀ col : List Value, t[j]? = some (name, col) →
        ∃ col', t'[j]? = some (name, col') ∧
          (p name = false → col' = col) ∧
          (p name = true → mapO f col = some col') := by
  intro t
  induction t with
  | nil => intro t' _ j name col hj; simp at hj
  | cons hd rest ih =>
    obtain ⟨name₀, col₀⟩ := hd
    intro t' h j name col hj
    simp only [mapColsO] at h
    cases hc : (if p name₀ then mapO f col₀ else some col₀) with
    | none => rw [hc] at h; exact absurd h (by simp)
    | some c =>
      rw [hc] at h
      cases hr : mapColsO p f rest with
      | none => rw [hr] at h; exact absurd h (by simp)
      | some r =>
        rw [hr] at h
        simp at h
        cases j with
        | zero =>
          simp at hj
          refine ⟨c, by simp [← h, hj.1], ?_, ?_⟩
          · intro hp
            rw [hj.1, hp] at hc
            simp at hc
            rw [← hc]
            exact hj.2
          · intro hp
            rw [hj.1, hj.2, hp] at hc
            simpa using hc
        | succ n =>
          simp at hj
          obtain ⟨col', h1, h2, h3⟩ := ih hr n name col hj
          exact ⟨col', by rw [← h]; simpa using h1, h2, h3⟩

theorem mapColsO_shape {p : String → Bool} {f : Value → Option Value} :
    ∀ {t t' : Table}, mapColsO p f t = some t' →
      colNames t' = colNames t ∧ colLens t' = colLens t := by
  intro t
  induction t with
  | nil =>
    intro t' h
    simp [mapColsO] at h
    simp [← h]
  | cons hd rest ih =>
    obtain ⟨name₀, col₀⟩ := hd
    intro t' h
    simp only [mapColsO] at h
    cases hc : (if p name₀ then mapO f col₀ else some col₀) with
    | none => rw [hc] at h; exact absurd h (by simp)
    | some c =>
      rw [hc] at h
      cases hr : mapColsO p f rest with
      | none => rw [hr] at h; exact absurd h (by simp)
      | some r =>
        rw [hr] at h
        simp at h
        have hlen : c.length = col₀.length := by
          by_cases hp : p name₀
          · rw [if_pos hp] at hc; exact mapO_length hc
          · rw [if_neg hp] at hc; simp at hc; simp [← hc]
        obtain ⟨ha, hb⟩ := ih hr
        constructor
        · simp [← h, colNames] at ha ⊢; exact ha
        · simp [← h, colLens] at hb ⊢; exact ⟨hlen, hb⟩

/-! ### The claims. -/

/-- C1: whenever `backshift_idx_fields` returns, it has decremented by
exactly one every number contained in every cell of every column whose name
starts with `idx` — a plain scalar cell as well as every entry of an array
cell — and has left every cell of every other column untouched. -/
theorem backshift_idx_fields_spec (t t' : Table)
    (h : backshift_idx_fields t = some t') :
    ∀ j : Nat, ∀ name : String, ∀ col : List Value, t[j]? = some (name, col) →
      ∃ col', t'[j]? = some (name, col') ∧
        (strStartsWith name "idx" = false → col' = col) ∧
        (strStartsWith name "idx" = true →
          (∀ i : Nat, ∀ q : ℚ, col[i]? = some (Value.num q) →
            col'[i]? = some (Value.num (q - 1))) ∧
          (∀ i : Nat, ∀ a : NDArray, col[i]? = some (Value.arr a) →
            col'[i]? = some (Value.arr ⟨a.shape, a.data.map (fun x => x - 1)⟩))) := by
  intro j name col hj
  obtain ⟨col', h1, h2, h3⟩ := mapColsO_spec h j name col hj
  refine ⟨col', h1, h2, fun hp => ?_⟩
  have hm := h3 hp
  constructor
  · intro i q hi
    rw [mapO_getElem hm i _ hi]
    simp [backshiftCell, qsub_eq]
  · intro i a hi
    rw [mapO_getElem hm i _ hi]
    simp [backshiftCell, qsub_eq]

/-- Witness for C1: the spec's example, a table with `idx_start` holding
`[5, 10, 1]` (which becomes `[4, 9, 0]`) and an `idx`-column array cell
`[3, 7]` (which becomes `[2, 6]`). -/
theorem backshift_idx_fields_spec_witness :
    ∃ col',
      ([("idx_start", [Value.num 4, Value.num 9, Value.num 0]),
        ("idx_arr", [Value.arr ⟨[2], [2, 6]⟩])] : Table)[0]? =
          some ("idx_start", col') ∧
      (strStartsWith "idx_start" "idx" = false →
        col' = [Value.num 5, Value.num 10, Value.num 1]) ∧
      (strStartsWith "idx_start" "idx" = true →
        (∀ i : Nat, ∀ q : ℚ,
          ([Value.num 5, Value.num 10, Value.num 1] : List Value)[i]? =
            some (Value.num q) →
          col'[i]? = some (Value.num (q - 1))) ∧
        (∀ i : Nat, ∀ a : NDArray,
          ([Value.num 5, Value.num 10, Value.num 1] : List Value)[i]? =
            some (Value.arr a) →
          col'[i]? = some (Value.arr ⟨a.shape, a.data.map (fun x => x - 1)⟩))) :=
  backshift_idx_fields_spec
    [("idx_start", [Value.num 5, Value.num 10, Value.num 1]),
     ("idx_arr", [Value.arr ⟨[2], [3, 7]⟩])]
    [("idx_start", [Value.num 4, Value.num 9, Value.num 0]),
     ("idx_arr", [Value.arr ⟨[2], [2, 6]⟩])]
    (by decide) 0 "idx_start" [Value.num 5, Value.num 10, Value.num 1] (by decide)

/-- C2: whenever `clean_0d_array_fields` returns, every array cell of every
column whose name ends with `_spikes` was left unchanged if it had exactly 2
dimensions and was reshaped to a 1-row 2-D array holding the same data
otherwise; every other column is unchanged, and on output every `_spikes`
column holds only 2-D arrays. -/
theorem clean_0d_array_fields_spec (t t' : Table)
    (h : clean_0d_array_fields t = some t') :
    ∀ j : Nat, ∀ name : String, ∀ col : List Value, t[j]? = some (name, col) →
      ∃ col', t'[j]? = some (name, col') ∧
        (strEndsWith name "_spikes" = false → col' = col) ∧
        (strEndsWith name "_spikes" = true →
          (∀ i : Nat, ∀ a : NDArray, col[i]? = some (Value.arr a) →
            a.ndim = 2 → col'[i]? = some (Value.arr a)) ∧
          (∀ i : Nat, ∀ a : NDArray, col[i]? = some (Value.arr a) →
            a.ndim ≠ 2 →
            col'[i]? = some (Value.arr ⟨[1, a.data.length], a.data⟩)) ∧
          (∀ i : Nat, ∀ v : Value, col'[i]? = some v →
            ∃ b : NDArray, v = Value.arr b ∧ b.ndim = 2)) := by
  intro j name col hj
  obtain ⟨col', h1, h2, h3⟩ := mapColsO_spec h j name col hj
  refine ⟨col', h1, h2, fun hp => ?_⟩
  have hm := h3 hp
  refine ⟨?_, ?_, ?_⟩
  · intro i a hi ha
    rw [mapO_getElem hm i _ hi]
    simp [ensure2dCell, ha]
  · intro i a hi ha
    rw [mapO_getElem hm i _ hi]
    simp [ensure2dCell, NDArray.reshapeRow, if_neg, ha]
  · intro i v hi
    have hlen := mapO_length hm
    have hidx : i < col.length := by
      rw [← hlen]
      exact (List.getElem?_eq_some.mp hi).1
    obtain ⟨v₀, hv₀⟩ : ∃ v₀, col[i]? = some v₀ :=
      ⟨col[i], List.getElem?_eq_some.mpr ⟨hidx, rfl⟩⟩
    have hfi := mapO_getElem hm i v₀ hv₀
    rw [hfi] at hi
    match v₀, hi with
    | Value.arr a, hi =>
      simp only [ensure2dCell] at hi
      by_cases ha : a.ndim = 2
      · rw [if_pos (by simpa using ha)] at hi
        exact ⟨a, by simpa using hi.symm, ha⟩
      · rw [if_neg (by simpa using ha)] at hi
        refine ⟨a.reshapeRow, by simpa using hi.symm, by simp [NDArray.reshapeRow, NDArray.ndim]⟩

/-- Witness for C2: the spec's example, a `m1_spikes` column holding a 0-D
array wrapping `7` (which becomes the 2-D array `[[7]]`) and a 2-D array
`[[1, 2], [3, 4]]` (which is unchanged). -/
theorem clean_0d_array_fields_spec_witness :
    ∃ col',
      ([("m1_spikes",
          [Value.arr ⟨[1, 1], [7]⟩,
           Value.arr ⟨[2, 2], [1, 2, 3, 4]⟩])] : Table)[0]? =
        some ("m1_spikes", col') ∧
      (strEndsWith "m1_spikes" "_spikes" = false →
        col' = [Value.arr ⟨[], [7]⟩, Value.arr ⟨[2, 2], [1, 2, 3, 4]⟩]) ∧
      (strEndsWith "m1_spikes" "_spikes" = true →
        (∀ i : Nat, ∀ a : NDArray,
          ([Value.arr ⟨[], [7]⟩,
            Value.arr ⟨[2, 2], [1, 2, 3, 4]⟩] : List Value)[i]? =
            some (Value.arr a) →
          a.ndim = 2 → col'[i]? = some (Value.arr a)) ∧
        (∀ i : Nat, ∀ a : NDArray,
          ([Value.arr ⟨[], [7]⟩,
            Value.arr ⟨[2, 2], [1, 2, 3, 4]⟩] : List Value)[i]? =
            some (Value.arr a) →
          a.ndim ≠ 2 →
          col'[i]? = some (Value.arr ⟨[1, a.data.length], a.data⟩)) ∧
        (∀ i : Nat, ∀ v : Value, col'[i]? = some v →
          ∃ b : NDArray, v = Value.arr b ∧ b.ndim = 2)) :=
  clean_0d_array_fields_spec
    [("m1_spikes", [Value.arr ⟨[], [7]⟩, Value.arr ⟨[2, 2], [1, 2, 3, 4]⟩])]
    [("m1_spikes", [Value.arr ⟨[1, 1], [7]⟩, Value.arr ⟨[2, 2], [1, 2, 3, 4]⟩])]
    (by decide) 0 "m1_spikes"
    [Value.arr ⟨[], [7]⟩, Value.arr ⟨[2, 2], [1, 2, 3, 4]⟩] (by decide)

/-- C3: `clean_0d_spike_fields` decides per column, all-or-nothing: a column
is replaced by its unwrapped scalar values iff every cell is an ndarray and
every one of those arrays is exactly 0-D; a column with any non-array cell or
any array of rank at least 1 is left entirely unmodified. -/
theorem clean_0d_spike_fields_spec (t : Table) :
    ∀ j : Nat, ∀ name : String, ∀ col : List Value, t[j]? = some (name, col) →
      ∃ col', (clean_0d_spike_fields t)[j]? = some (name, col') ∧
        ((col.all Value.isArr && col.all Value.isArr0d) = true →
          ∀ i : Nat, ∀ a : NDArray, ∀ q : ℚ,
            col[i]? = some (Value.arr a) → a.data = [q] →
            col'[i]? = some (Value.num q)) ∧
        ((col.all Value.isArr && col.all Value.isArr0d) = false → col' = col) := by
  intro j name col hj
  refine ⟨collapseCol col, ?_, ?_, ?_⟩
  · simp [clean_0d_spike_fields, hj]
  · intro hb i a q hi hq
    have h1 : col.all Value.isArr = true := by
      exact (Bool.and_eq_true _ _).mp hb |>.1
    have h2 : col.all Value.isArr0d = true := by
      exact (Bool.and_eq_true _ _).mp hb |>.2
    rw [collapseCol, if_pos h1, if_pos h2]
    simp [hi, unwrapCell, NDArray.item, hq]
  · intro hb
    rw [collapseCol]
    rcases Bool.and_eq_false_iff.mp hb with h | h
    · rw [if_neg (by simp [h])]
    · by_cases h1 : col.all Value.isArr
      · rw [if_pos h1, if_neg (by simp [h])]
      · rw [if_neg h1]

/-- Witness for C3: a column of 0-D arrays wrapping `3, 5, 2` collapses to
those scalars, while a column containing one 1-D array stays whole. -/
theorem clean_0d_spike_fields_spec_witness :
    ∃ col',
      (clean_0d_spike_fields
        [("a", [Value.arr ⟨[], [3]⟩, Value.arr ⟨[], [5]⟩, Value.arr ⟨[], [2]⟩]),
         ("b", [Value.arr ⟨[], [3]⟩, Value.arr ⟨[1], [5]⟩])])[0]? =
        some ("a", col') ∧
      ((([Value.arr ⟨[], [3]⟩, Value.arr ⟨[], [5]⟩,
          Value.arr ⟨[], [2]⟩] : List Value).all Value.isArr &&
        ([Value.arr ⟨[], [3]⟩, Value.arr ⟨[], [5]⟩,
          Value.arr ⟨[], [2]⟩] : List Value).all Value.isArr0d) = true →
        ∀ i : Nat, ∀ a : NDArray, ∀ q : ℚ,
          ([Value.arr ⟨[], [3]⟩, Value.arr ⟨[], [5]⟩,
            Value.arr ⟨[], [2]⟩] : List Value)[i]? = some (Value.arr a) →
          a.data = [q] → col'[i]? = some (Value.num q)) ∧
      ((([Value.arr ⟨[], [3]⟩, Value.arr ⟨[], [5]⟩,
          Value.arr ⟨[], [2]⟩] : List Value).all Value.isArr &&
        ([Value.arr ⟨[], [3]⟩, Value.arr ⟨[], [5]⟩,
          Value.arr ⟨[], [2]⟩] : List Value).all Value.isArr0d) = false →
        col' = [Value.arr ⟨[], [3]⟩, Value.arr ⟨[], [5]⟩, Value.arr ⟨[], [2]⟩]) :=
  clean_0d_spike_fields_spec
    [("a", [Value.arr ⟨[], [3]⟩, Value.arr ⟨[], [5]⟩, Value.arr ⟨[], [2]⟩]),
     ("b", [Value.arr ⟨[], [3]⟩, Value.arr ⟨[1], [5]⟩])]
    0 "a" [Value.arr ⟨[], [3]⟩, Value.arr ⟨[], [5]⟩, Value.arr ⟨[], [2]⟩]
    (by decide)

/-! ### Lemmas about the integer down-casting loop. -/

theorem cleanIntPairs_getElem :
    ∀ (t : Table) (j : Nat) (name : String) (col : List Value),
      t[j]? = some (name, col) →
      (cleanIntPairs t).1[j]? = some (name, (processIntColumn col).1) ∧
      (cleanIntPairs t).2[j]? = some (name, (processIntColumn col).2) := by
  intro t
  induction t with
  | nil => intro j name col hj; simp at hj
  | cons hd rest ih =>
    obtain ⟨n₀, c₀⟩ := hd
    intro j name col hj
    cases j with
    | zero =>
      simp at hj
      simp [cleanIntPairs, hj.1, hj.2]
    | succ n =>
      simp at hj
      simpa [cleanIntPairs] using ih n name col hj

theorem processIntColumn_failed (col : List Value)
    (h : (processIntColumn col).2 = true) : (processIntColumn col).1 = col := by
  match h0 : col[0]? with
  | none => simp [processIntColumn, h0]
  | some (Value.arr a) =>
    simp only [processIntColumn, h0] at h ⊢
    match hm : mapO i32CastCell col with
    | none => simp
    | some casted =>
      simp only [hm] at h ⊢
      by_cases hcl : allPairsClose casted col
      · simp [hcl] at h
      · simp [hcl]
  | some (Value.str s) => simp [processIntColumn, h0] at h
  | some (Value.num q) =>
    simp only [processIntColumn, h0] at h ⊢
    by_cases hn : col.all Value.isNum
    · by_cases hcl : allPairsClose (col.map i32CastNum) col
      · simp [hn, hcl] at h
      · simp [hn, hcl] at h
    · simp [hn]

/-- C4: `clean_integer_fields` classifies each column by its first row value.
First element an array: the column is replaced by the 32-bit integer casts of
its cells iff every row's cast is numerically close to the original (given the
cast itself does not raise).  First element numeric (neither array nor
string): the whole column is replaced by its 32-bit integer cast iff the cast
column is numerically close to the original (given the whole-column cast does
not raise, i.e. every cell is a numeric scalar).  First element a string: the
column is left unchanged. -/
theorem clean_integer_fields_cast_spec (t : Table) :
    ∀ j : Nat, ∀ name : String, ∀ col : List Value, t[j]? = some (name, col) →
      ∃ col', (clean_integer_fields t).1[j]? = some (name, col') ∧
        (∀ a : NDArray, col[0]? = some (Value.arr a) →
          ∀ casted : List Value, mapO i32CastCell col = some casted →
            (allPairsClose casted col = true → col' = casted) ∧
            (allPairsClose casted col = false → col' = col)) ∧
        (∀ q : ℚ, col[0]? = some (Value.num q) → col.all Value.isNum = true →
          (allPairsClose (col.map i32CastNum) col = true →
            col' = col.map i32CastNum) ∧
          (allPairsClose (col.map i32CastNum) col = false → col' = col)) ∧
        (∀ s : String, col[0]? = some (Value.str s) → col' = col) := by
  intro j name col hj
  obtain ⟨h1, _⟩ := cleanIntPairs_getElem t j name col hj
  refine ⟨(processIntColumn col).1, h1, ?_, ?_, ?_⟩
  · intro a h0 casted hm
    constructor
    · intro hcl; simp [processIntColumn, h0, hm, hcl]
    · intro hcl; simp [processIntColumn, h0, hm, hcl]
  · intro q h0 hn
    constructor
    · intro hcl; simp [processIntColumn, h0, hn, hcl]
    · intro hcl; simp [processIntColumn, h0, hn, hcl]
  · intro s h0
    simp [processIntColumn, h0]

/-- Witness for C4: a float column `[1, 2, 3]` is integer-cast (closeness
holds exactly), instantiated on the scalar branch. -/
theorem clean_integer_fields_cast_spec_witness :
    ∃ col',
      (clean_integer_fields
        [("f", [Value.num 1, Value.num 2, Value.num 3])]).1[0]? =
        some ("f", col') ∧
      (∀ a : NDArray,
        ([Value.num 1, Value.num 2, Value.num 3] : List Value)[0]? =
          some (Value.arr a) →
        ∀ casted : List Value,
          mapO i32CastCell [Value.num 1, Value.num 2, Value.num 3] =
            some casted →
          (allPairsClose casted [Value.num 1, Value.num 2, Value.num 3] = true →
            col' = casted) ∧
          (allPairsClose casted [Value.num 1, Value.num 2, Value.num 3] = false →
            col' = [Value.num 1, Value.num 2, Value.num 3])) ∧
      (∀ q : ℚ,
        ([Value.num 1, Value.num 2, Value.num 3] : List Value)[0]? =
          some (Value.num q) →
        ([Value.num 1, Value.num 2, Value.num 3] : List Value).all
          Value.isNum = true →
        (allPairsClose
            (([Value.num 1, Value.num 2, Value.num 3] : List Value).map
              i32CastNum)
            [Value.num 1, Value.num 2, Value.num 3] = true →
          col' = ([Value.num 1, Value.num 2, Value.num 3] : List Value).map
            i32CastNum) ∧
        (allPairsClose
            (([Value.num 1, Value.num 2, Value.num 3] : List Value).map
              i32CastNum)
            [Value.num 1, Value.num 2, Value.num 3] = false →
          col' = [Value.num 1, Value.num 2, Value.num 3])) ∧
      (∀ s : String,
        ([Value.num 1, Value.num 2, Value.num 3] : List Value)[0]? =
          some (Value.str s) →
        col' = [Value.num 1, Value.num 2, Value.num 3]) :=
  clean_integer_fields_cast_spec
    [("f", [Value.num 1, Value.num 2, Value.num 3])]
    0 "f" [Value.num 1, Value.num 2, Value.num 3] (by decide)

/-- C7: whenever the cast attempt or closeness check for a column raises, the
exception is swallowed — `clean_integer_fields` still returns a table — and
that column of the returned table equals the input column exactly. -/
theorem clean_integer_fields_swallow (t : Table) :
    ∀ j : Nat, ∀ name : String, ∀ col : List Value, t[j]? = some (name, col) →
      (cleanIntPairs t).2[j]? = some (name, true) →
      (clean_integer_fields t).1[j]? = some (name, col) := by
  intro j name col hj hbad
  obtain ⟨h1, h2⟩ := cleanIntPairs_getElem t j name col hj
  rw [h2] at hbad
  have hf : (processIntColumn col).2 = true := by
    simpa using hbad
  rw [clean_integer_fields]
  rw [processIntColumn_failed col hf] at h1
  exact h1

/-- Witness for C7: a column whose first element is numeric but which
contains a string (so the whole-column cast raises) comes back unchanged. -/
theorem clean_integer_fields_swallow_witness :
    (clean_integer_fields
      [("bad", [Value.num 1, Value.str "x"])]).1[0]? =
      some ("bad", [Value.num 1, Value.str "x"]) :=
  clean_integer_fields_swallow
    [("bad", [Value.num 1, Value.str "x"])]
    0 "bad" [Value.num 1, Value.str "x"] (by decide) (by decide)

/-- C5: `clean_integer_fields` prints its single diagnostic line iff the list
of failed fields, after removing every `label`-containing name, is non-empty;
the printed names are exactly that filtered list, so no `label`-containing
name ever appears; and a column whose first element is a string is never
recorded as failed (hence never reported). -/
theorem clean_integer_fields_report_spec (t : Table) :
    ((clean_integer_fields t).2 ≠ none ↔ bad_fields t ≠ []) ∧
    (∀ names : List String, (clean_integer_fields t).2 = some names →
      names = bad_fields t ∧ ∀ f ∈ names, containsLabel f = false) ∧
    (∀ j : Nat, ∀ name : String, ∀ col : List Value, ∀ s : String,
      t[j]? = some (name, col) → col[0]? = some (Value.str s) →
      (cleanIntPairs t).2[j]? = some (name, false)) := by
  refine ⟨?_, ?_, ?_⟩
  · rw [clean_integer_fields]
    by_cases hb : bad_fields t = []
    · simp [hb]
    · simp [hb]
  · intro names h
    rw [clean_integer_fields] at h
    by_cases hb : bad_fields t = []
    · simp [hb] at h
    · simp [hb] at h
      refine ⟨h.symm, ?_⟩
      intro f hf
      rw [← h] at hf
      have := List.mem_filter.mp hf
      simpa using this.2
  · intro j name col s hj h0
    obtain ⟨_, h2⟩ := cleanIntPairs_getElem t j name col hj
    rw [h2]
    simp [processIntColumn, h0]

/-- Witness for C5: a table with one inconvertible non-label column `bad`,
one inconvertible label column `target_label`, and one string column `s`:
exactly `["bad"]` is printed. -/
theorem clean_integer_fields_report_spec_witness :
    ((clean_integer_fields
        [("bad", [Value.num 1, Value.str "x"]),
         ("target_label", [Value.num 1, Value.str "x"]),
         ("s", [Value.str "x"])]).2 ≠ none ↔
      bad_fields
        [("bad", [Value.num 1, Value.str "x"]),
         ("target_label", [Value.num 1, Value.str "x"]),
         ("s", [Value.str "x"])] ≠ []) ∧
    (∀ f ∈ (["bad"] : List String), containsLabel f = false) ∧
    (cleanIntPairs
      [("bad", [Value.num 1, Value.str "x"]),
       ("target_label", [Value.num 1, Value.str "x"]),
       ("s", [Value.str "x"])]).2[2]? = some ("s", false) := by
  have h := clean_integer_fields_report_spec
    [("bad", [Value.num 1, Value.str "x"]),
     ("target_label", [Value.num 1, Value.str "x"]),
     ("s", [Value.str "x"])]
  refine ⟨h.1, ?_, ?_⟩
  · exact (h.2.1 ["bad"] (by decide)).2
  · exact h.2.2 2 "s" [Value.str "x"] "x" (by decide) (by decide)

theorem collapseCol_length (col : List Value) :
    (collapseCol col).length = col.length := by
  rw [collapseCol]
  by_cases h1 : col.all Value.isArr
  · rw [if_pos h1]
    by_cases h2 : col.all Value.isArr0d
    · rw [if_pos h2]; simp
    · rw [if_neg h2]
  · rw [if_neg h1]

theorem processIntColumn_length (col : List Value) :
    (processIntColumn col).1.length = col.length := by
  match h0 : col[0]? with
  | none => simp [processIntColumn, h0]
  | some (Value.arr a) =>
    simp only [processIntColumn, h0]
    match hm : mapO i32CastCell col with
    | none => simp
    | some casted =>
      by_cases hcl : allPairsClose casted col
      · simp [hcl, mapO_length hm]
      · simp [hcl]
  | some (Value.str s) => simp [processIntColumn, h0]
  | some (Value.num q) =>
    simp only [processIntColumn, h0]
    by_cases hn : col.all Value.isNum
    · by_cases hcl : allPairsClose (col.map i32CastNum) col
      · simp [hn, hcl]
      · simp [hn, hcl]
    · simp [hn]

theorem cleanIntPairs_shape (t : Table) :
    colNames (cleanIntPairs t).1 = colNames t ∧
      colLens (cleanIntPairs t).1 = colLens t := by
  induction t with
  | nil => simp [cleanIntPairs, colNames, colLens]
  | cons hd rest ih =>
    obtain ⟨n₀, c₀⟩ := hd
    obtain ⟨ih1, ih2⟩ := ih
    constructor
    · simpa [cleanIntPairs, colNames] using ih1
    · simpa [cleanIntPairs, colLens, processIntColumn_length] using ih2

theorem mapO_eq_map {f : Value → Option Value} :
    ∀ {l l' : List Value}, mapO f l = some l' →
      l' = l.map (fun v => (f v).getD v) := by
  intro l
  induction l with
  | nil => intro l' h; simp [mapO] at h; simpa using h
  | cons x xs ih =>
    intro l' h
    simp only [mapO] at h
    cases hx : f x with
    | none => rw [hx] at h; exact absurd h (by simp)
    | some w =>
      rw [hx] at h
      cases hxs : mapO f xs with
      | none => rw [hxs] at h; exact absurd h (by simp)
      | some ws =>
        rw [hxs] at h
        simp at h
        rw [← h, List.map_cons, hx, ih hxs]
        rfl

theorem mapColsO_preservesShape {p : String → Bool} {f : Value → Option Value}
    {t t' : Table} (h : mapColsO p f t = some t') : PreservesShape t t' := by
  obtain ⟨hn, hl⟩ := mapColsO_shape h
  refine ⟨hn, hl, ?_⟩
  intro j name col hj
  obtain ⟨col', h1, h2, h3⟩ := mapColsO_spec h j name col hj
  by_cases hp : p name = true
  · exact ⟨col', fun v => (f v).getD v, h1, mapO_eq_map (h3 hp)⟩
  · refine ⟨col', id, h1, ?_⟩
    rw [h2 (by simpa using hp), List.map_id]

theorem collapseCol_map (col : List Value) :
    ∃ g : Value → Value, collapseCol col = col.map g := by
  rw [collapseCol]
  by_cases h1 : col.all Value.isArr
  · rw [if_pos h1]
    by_cases h2 : col.all Value.isArr0d
    · rw [if_pos h2]; exact ⟨unwrapCell, rfl⟩
    · rw [if_neg h2]; exact ⟨id, (List.map_id col).symm⟩
  · rw [if_neg h1]; exact ⟨id, (List.map_id col).symm⟩

theorem processIntColumn_map (col : List Value) :
    ∃ g : Value → Value, (processIntColumn col).1 = col.map g := by
  match h0 : col[0]? with
  | none =>
    refine ⟨id, ?_⟩
    simp [processIntColumn, h0]
  | some (Value.str s) =>
    refine ⟨id, ?_⟩
    simp [processIntColumn, h0]
  | some (Value.arr a) =>
    match hm : mapO i32CastCell col with
    | none =>
      refine ⟨id, ?_⟩
      simp [processIntColumn, h0, hm]
    | some casted =>
      by_cases hcl : allPairsClose casted col
      · refine ⟨fun v => (i32CastCell v).getD v, ?_⟩
        rw [← mapO_eq_map hm]
        simp [processIntColumn, h0, hm, hcl]
      · refine ⟨id, ?_⟩
        simp [processIntColumn, h0, hm, hcl]
  | some (Value.num q) =>
    by_cases hn : col.all Value.isNum
    · by_cases hcl : allPairsClose (col.map i32CastNum) col
      · refine ⟨i32CastNum, ?_⟩
        simp [processIntColumn, h0, hn, hcl]
      · refine ⟨id, ?_⟩
        simp [processIntColumn, h0, hn, hcl]
    · refine ⟨id, ?_⟩
      simp [processIntColumn, h0, hn]

/-- C9: each of the four transforms preserves the table's shape — the
returned table has the same ordered column names and the same per-column row
counts as the input, and every returned column is an elementwise map of the
input column, so rows stay in their positions (same row count and row order);
only cell values change. -/
theorem shape_preservation (t : Table) :
    (∀ t' : Table, backshift_idx_fields t = some t' → PreservesShape t t') ∧
    (∀ t' : Table, clean_0d_array_fields t = some t' → PreservesShape t t') ∧
    PreservesShape t (clean_0d_spike_fields t) ∧
    PreservesShape t (clean_integer_fields t).1 := by
  refine ⟨fun t' h => mapColsO_preservesShape h,
    fun t' h => mapColsO_preservesShape h, ?_, ?_⟩
  · refine ⟨?_, ?_, ?_⟩
    · simp [clean_0d_spike_fields, colNames]
    · simp [clean_0d_spike_fields, colLens, collapseCol_length]
    · intro j name col hj
      obtain ⟨g, hg⟩ := collapseCol_map col
      refine ⟨collapseCol col, g, ?_, hg⟩
      simp [clean_0d_spike_fields, hj]
  · obtain ⟨hn, hl⟩ := cleanIntPairs_shape t
    refine ⟨hn, hl, ?_⟩
    intro j name col hj
    obtain ⟨g, hg⟩ := processIntColumn_map col
    exact ⟨(processIntColumn col).1, g, (cleanIntPairs_getElem t j name col hj).1, hg⟩

/-- Witness for C9: a three-column table on which both `Option`-valued
transforms succeed; each transform preserves names, row counts and row
positions. -/
theorem shape_preservation_witness :
    PreservesShape
      [("idx_a", [Value.num 3]),
       ("m1_spikes", [Value.arr ⟨[1, 2], [1, 2]⟩]),
       ("s", [Value.str "x"])]
      [("idx_a", [Value.num 2]),
       ("m1_spikes", [Value.arr ⟨[1, 2], [1, 2]⟩]),
       ("s", [Value.str "x"])] ∧
    PreservesShape
      [("idx_a", [Value.num 3]),
       ("m1_spikes", [Value.arr ⟨[1, 2], [1, 2]⟩]),
       ("s", [Value.str "x"])]
      [("idx_a", [Value.num 3]),
       ("m1_spikes", [Value.arr ⟨[1, 2], [1, 2]⟩]),
       ("s", [Value.str "x"])] :=
  ⟨(shape_preservation
      [("idx_a", [Value.num 3]),
       ("m1_spikes", [Value.arr ⟨[1, 2], [1, 2]⟩]),
       ("s", [Value.str "x"])]).1
      [("idx_a", [Value.num 2]),
       ("m1_spikes", [Value.arr ⟨[1, 2], [1, 2]⟩]),
       ("s", [Value.str "x"])] (by decide),
   (shape_preservation
      [("idx_a", [Value.num 3]),
       ("m1_spikes", [Value.arr ⟨[1, 2], [1, 2]⟩]),
       ("s", [Value.str "x"])]).2.1
      [("idx_a", [Value.num 3]),
       ("m1_spikes", [Value.arr ⟨[1, 2], [1, 2]⟩]),
       ("s", [Value.str "x"])] (by decide)⟩

/-! ### Idempotence of the integer down-cast. -/

theorem i32wrap_idem (z : ℤ) : i32wrap (i32wrap z) = i32wrap z := by
  unfold i32wrap
  rw [sub_add_cancel, Int.emod_emod_of_dvd _ dvd_rfl]

theorem truncQ_intCast (z : ℤ) : truncQ (z : ℚ) = z := by
  unfold truncQ
  by_cases h : (0 : ℚ) ≤ (z : ℚ)
  · rw [if_pos h, Int.floor_intCast]
  · rw [if_neg h, Int.ceil_intCast]

theorem i32OfQ_idem (q : ℚ) : i32OfQ (i32OfQ q) = i32OfQ q := by
  unfold i32OfQ
  rw [truncQ_intCast, i32wrap_idem]

theorem isClose_self (x : ℚ) : isClose x x = true := by
  simp only [isClose, decide_eq_true_eq]
  rw [qsub_eq, sub_self, qabs_eq, abs_zero, qadd_eq, qmul_eq, qabs_eq]
  have h8 : (0 : ℚ) ≤ mkRat 1 (10 ^ 8) := by
    rw [Rat.mkRat_eq_div]; positivity
  have h5 : (0 : ℚ) ≤ mkRat 1 (10 ^ 5) := by
    rw [Rat.mkRat_eq_div]; positivity
  exact add_nonneg h8 (mul_nonneg h5 (abs_nonneg x))

theorem zipSelf_all_isClose (l : List ℚ) :
    ((l.zip l).all fun p => isClose p.1 p.2) = true := by
  induction l with
  | nil => rfl
  | cons x xs ih => simp only [List.zip_cons_cons, List.all_cons, isClose_self x,
      Bool.true_and]; exact ih

theorem valueClose_self (v : Value) (h : v.isStr = false) :
    valueClose v v = true := by
  cases v with
  | num q => exact isClose_self q
  | str s => simp [Value.isStr] at h
  | arr a => exact zipSelf_all_isClose a.data

theorem allPairsClose_self (l : List Value) (h : ∀ v ∈ l, Value.isStr v = false) :
    allPairsClose l l = true := by
  induction l with
  | nil => rfl
  | cons v vs ih =>
    simp only [allPairsClose, List.zip_cons_cons, List.all_cons]
    rw [valueClose_self v (h v (by simp)), allPairsClose] at *
    simp only [Bool.true_and]
    exact ih fun w hw => h w (by simp [hw])

theorem i32CastCell_not_str (v w : Value) (h : i32CastCell v = some w) :
    w.isStr = false := by
  cases v with
  | num q => simp [i32CastCell] at h; simp [← h, Value.isStr]
  | str s => simp [i32CastCell] at h
  | arr a => simp [i32CastCell] at h; simp [← h, Value.isStr]

theorem i32CastCell_idem (v w : Value) (h : i32CastCell v = some w) :
    i32CastCell w = some w := by
  cases v with
  | num q =>
    simp [i32CastCell] at h
    rw [← h]
    simp [i32CastCell, i32OfQ_idem]
  | str s => simp [i32CastCell] at h
  | arr a =>
    simp [i32CastCell] at h
    rw [← h]
    simp only [i32CastCell, List.map_map, Option.some.injEq, Value.arr.injEq,
      NDArray.mk.injEq, true_and]
    exact List.map_congr_left fun x _ => i32OfQ_idem x

theorem mapO_mem {f : Value → Option Value} :
    ∀ {l l' : List Value}, mapO f l = some l' →
      ∀ w ∈ l', ∃ v ∈ l, f v = some w := by
  intro l
  induction l with
  | nil => intro l' h w hw; simp [mapO] at h; subst h; simp at hw
  | cons x xs ih =>
    intro l' h w hw
    simp only [mapO] at h
    cases hx : f x with
    | none => rw [hx] at h; exact absurd h (by simp)
    | some y =>
      rw [hx] at h
      cases hxs : mapO f xs with
      | none => rw [hxs] at h; exact absurd h (by simp)
      | some ys =>
        rw [hxs] at h
        simp at h
        rw [← h] at hw
        rcases List.mem_cons.mp hw with hwy | hwys
        · exact ⟨x, by simp, by rw [hx, hwy]⟩
        · obtain ⟨v, hv, hfv⟩ := ih hxs w hwys
          exact ⟨v, by simp [hv], hfv⟩

theorem mapO_cast_idem :
    ∀ {col casted : List Value}, mapO i32CastCell col = some casted →
      mapO i32CastCell casted = some casted := by
  intro col
  induction col with
  | nil => intro casted h; simp [mapO] at h; subst h; rfl
  | cons v vs ih =>
    intro casted h
    simp only [mapO] at h
    cases hv : i32CastCell v with
    | none => rw [hv] at h; exact absurd h (by simp)
    | some w =>
      rw [hv] at h
      cases hvs : mapO i32CastCell vs with
      | none => rw [hvs] at h; exact absurd h (by simp)
      | some ws =>
        rw [hvs] at h
        simp at h
        rw [← h]
        simp only [mapO, i32CastCell_idem v w hv, ih hvs]

theorem i32CastNum_idem (v : Value) : i32CastNum (i32CastNum v) = i32CastNum v := by
  cases v <;> simp [i32CastNum, i32OfQ_idem]

theorem processIntColumn_idem (col : List Value) :
    (processIntColumn (processIntColumn col).1).1 = (processIntColumn col).1 := by
  match h0 : col[0]? with
  | none =>
    have he : (processIntColumn col).1 = col := by simp [processIntColumn, h0]
    rw [he]
    exact he
  | some (Value.str s) =>
    have he : (processIntColumn col).1 = col := by simp [processIntColumn, h0]
    rw [he]
    exact he
  | some (Value.arr a) =>
    match hm : mapO i32CastCell col with
    | none =>
      have he : (processIntColumn col).1 = col := by simp [processIntColumn, h0, hm]
      rw [he]
      exact he
    | some casted =>
      by_cases hcl : allPairsClose casted col
      · have he : (processIntColumn col).1 = casted := by
          simp [processIntColumn, h0, hm, hcl]
        rw [he]
        have hc0 : casted[0]? = some (Value.arr ⟨a.shape, a.data.map i32OfQ⟩) := by
          rw [mapO_getElem hm 0 _ h0]
          rfl
        have hstr : ∀ w ∈ casted, Value.isStr w = false := by
          intro w hw
          obtain ⟨v, _, hfv⟩ := mapO_mem hm w hw
          exact i32CastCell_not_str v w hfv
        simp [processIntColumn, hc0, mapO_cast_idem hm, allPairsClose_self casted hstr]
      · have he : (processIntColumn col).1 = col := by
          simp [processIntColumn, h0, hm, hcl]
        rw [he]
        exact he
  | some (Value.num q) =>
    by_cases hn : col.all Value.isNum
    · by_cases hcl : allPairsClose (col.map i32CastNum) col
      · have he : (processIntColumn col).1 = col.map i32CastNum := by
          simp [processIntColumn, h0, hn, hcl]
        rw [he]
        have hc0 : (col.map i32CastNum)[0]? = some (Value.num (i32OfQ q)) := by
          simp [h0, i32CastNum]
        have hall : (col.map i32CastNum).all Value.isNum = true := by
          rw [List.all_eq_true] at hn ⊢
          intro w hw
          obtain ⟨v, hv, hvw⟩ := List.mem_map.mp hw
          have := hn v hv
          cases v with
          | num q' => rw [← hvw]; rfl
          | str s => simp [Value.isNum] at this
          | arr b => simp [Value.isNum] at this
        have hmap : (col.map i32CastNum).map i32CastNum = col.map i32CastNum := by
          rw [List.map_map]
          exact List.map_congr_left fun v _ => i32CastNum_idem v
        have hstr : ∀ w ∈ col.map i32CastNum, Value.isStr w = false := by
          intro w hw
          have := (List.all_eq_true.mp hall) w hw
          cases w with
          | num q' => rfl
          | str s => simp [Value.isNum] at this
          | arr b => simp [Value.isNum] at this
        have hclose : allPairsClose ((col.map i32CastNum).map i32CastNum)
            (col.map i32CastNum) = true := by
          rw [hmap]
          exact allPairsClose_self _ hstr
        simp [processIntColumn, hc0, hall, hclose, hmap]
      · have he : (processIntColumn col).1 = col := by
          simp [processIntColumn, h0, hn, hcl]
        rw [he]
        exact he
    · have he : (processIntColumn col).1 = col := by
        simp [processIntColumn, h0, hn]
      rw [he]
      exact he

theorem cleanIntPairs_idem (t : Table) :
    (cleanIntPairs (cleanIntPairs t).1).1 = (cleanIntPairs t).1 := by
  induction t with
  | nil => rfl
  | cons hd rest ih =>
    obtain ⟨n₀, c₀⟩ := hd
    simpa [cleanIntPairs, processIntColumn_idem] using ih

/-- C8: applying `clean_integer_fields` twice returns the same table as
applying it once — a column replaced by its 32-bit integer cast passes the
closeness check against itself exactly on the second pass and is re-cast to
itself, and a column left unmodified is left unmodified again. -/
theorem clean_integer_fields_idem (t : Table) :
    (clean_integer_fields (clean_integer_fields t).1).1 =
      (clean_integer_fields t).1 :=
  cleanIntPairs_idem t

/-! ### Zero-row tables under the integer down-cast. -/

theorem cleanIntPairs_zero_rows (t : Table)
    (hz : ∀ c ∈ t, c.2 = ([] : List Value)) :
    (cleanIntPairs t).1 = t ∧
      (cleanIntPairs t).2 = t.map (fun c => (c.1, true)) := by
  induction t with
  | nil => simp [cleanIntPairs]
  | cons hd rest ih =>
    obtain ⟨n₀, c₀⟩ := hd
    have h0 : c₀ = [] := hz (n₀, c₀) (by simp)
    obtain ⟨ih1, ih2⟩ := ih fun c hc => hz c (by simp [hc])
    subst h0
    simp [cleanIntPairs, processIntColumn, ih1, ih2]

/-- Counterexample to C10 as stated: the zero-row, one-column table whose only
column is named `trial_label` satisfies the claim's hypotheses (zero rows, at
least one column), and the column is recorded as failed, yet
`clean_integer_fields` prints nothing (`none`) instead of printing the
diagnostic line the claim asserts. -/
theorem clean_integer_fields_zero_rows_cex :
    ([("trial_label", ([] : List Value))] : Table) ≠ [] ∧
    (∀ c ∈ ([("trial_label", ([] : List Value))] : Table), c.2 = []) ∧
    bad_fields_raw [("trial_label", ([] : List Value))] = ["trial_label"] ∧
    (clean_integer_fields [("trial_label", ([] : List Value))]).2 = none :=
  ⟨by decide, by decide, by decide, by decide⟩

/-- C10 (amended): for every table with zero rows and at least one column,
`clean_integer_fields` records every column as a could-not-convert field
(reading the first row value raises and is caught), returns the table
unchanged, and prints the diagnostic line naming every column whose name does
not contain `label` case-insensitively — provided at least one such column
exists; when every column name contains `label`, nothing is printed. -/
theorem clean_integer_fields_zero_rows (t : Table) (_hne : t ≠ [])
    (hz : ∀ c ∈ t, c.2 = ([] : List Value)) :
    (clean_integer_fields t).1 = t ∧
    bad_fields_raw t = colNames t ∧
    (clean_integer_fields t).2 =
      (if (colNames t).filter (fun f => !containsLabel f) = [] then none
       else some ((colNames t).filter (fun f => !containsLabel f))) := by
  obtain ⟨h1, h2⟩ := cleanIntPairs_zero_rows t hz
  have hraw : bad_fields_raw t = colNames t := by
    rw [bad_fields_raw, h2, List.filter_map, colNames]
    have : List.filter ((fun p => p.2) ∘ fun c => (c.1, true)) t = t :=
      List.filter_eq_self.mpr fun a _ => rfl
    rw [this]
    simp
  have hbf : bad_fields t = (colNames t).filter (fun f => !containsLabel f) := by
    rw [bad_fields, hraw]
  refine ⟨h1, hraw, ?_⟩
  rw [clean_integer_fields]
  by_cases h : (colNames t).filter (fun f => !containsLabel f) = []
  · simp only [hbf, h, if_pos rfl]
  · simp only [hbf, h, if_neg h]

/-- Witness for the amended C10: a zero-row table with a label column and a
non-label column `x`; everything fails, the table is unchanged, and the
printed line names exactly `x`. -/
theorem clean_integer_fields_zero_rows_witness :
    (clean_integer_fields
        [("trial_label", ([] : List Value)), ("x", [])]).1 =
      [("trial_label", ([] : List Value)), ("x", [])] ∧
    bad_fields_raw [("trial_label", ([] : List Value)), ("x", [])] =
      colNames [("trial_label", ([] : List Value)), ("x", [])] ∧
    (clean_integer_fields
        [("trial_label", ([] : List Value)), ("x", [])]).2 =
      (if (colNames
            [("trial_label", ([] : List Value)), ("x", [])]).filter
              (fun f => !containsLabel f) = [] then none
       else some ((colNames
            [("trial_label", ([] : List Value)), ("x", [])]).filter
              (fun f => !containsLabel f))) :=
  clean_integer_fields_zero_rows
    [("trial_label", ([] : List Value)), ("x", [])]
    (by decide) (by decide)

/-! ### The non-mutation contract. -/

theorem allocTable_store (tb : Table) :
    ∀ s : Store, ∃ ext : Store, (allocTable s tb).1 = s ++ ext := by
  induction tb with
  | nil => intro s; exact ⟨[], by simp [allocTable]⟩
  | cons hd rest ih =>
    obtain ⟨name, col⟩ := hd
    intro s
    obtain ⟨ext, hext⟩ := ih (s ++ col)
    exact ⟨col ++ ext, by simp [allocTable, hext]⟩

theorem allocTable_fresh (tb : Table) :
    ∀ s : Store, ∀ a ∈ addrsOf (allocTable s tb).2, s.length ≤ a := by
  induction tb with
  | nil => intro s a ha; simp [allocTable, addrsOf] at ha
  | cons hd rest ih =>
    obtain ⟨name, col⟩ := hd
    intro s a ha
    simp only [allocTable, addrsOf, List.map_cons, List.flatten_cons,
      List.mem_append] at ha
    rcases ha with hhead | hrest
    · obtain ⟨i, _, hi⟩ := List.mem_map.mp hhead
      omega
    · have := ih (s ++ col) a (by simpa [addrsOf] using hrest)
      simp at this
      omega

theorem foldl_set_preserve (ps : List (Nat × Value)) (n : Nat)
    (h : ∀ p ∈ ps, n ≤ p.1) :
    ∀ (s : Store) (i : Nat), i < n →
      (ps.foldl (fun st p => st.set p.1 p.2) s)[i]? = s[i]? := by
  induction ps with
  | nil => intro s i _; rfl
  | cons p ps ih =>
    intro s i hi
    rw [List.foldl_cons, ih (fun q hq => h q (by simp [hq])) _ i hi]
    exact List.getElem?_set_ne (by have := h p (by simp); omega)

theorem writeCol_preserve (s : Store) (addrs : List Nat) (vals : List Value)
    (n : Nat) (h : ∀ a ∈ addrs, n ≤ a) :
    ∀ i < n, (writeCol s addrs vals)[i]? = s[i]? := by
  intro i hi
  exact foldl_set_preserve (addrs.zip vals) n
    (fun p hp => h p.1 (List.of_mem_zip hp).1) s i hi

theorem foldl_writeCol_preserve
    (qs : List ((String × List Nat) × (String × List Value))) (n : Nat)
    (h : ∀ q ∈ qs, ∀ a ∈ q.1.2, n ≤ a) :
    ∀ (s : Store), ∀ i < n,
      (qs.foldl (fun st q => writeCol st q.1.2 q.2.2) s)[i]? = s[i]? := by
  induction qs with
  | nil => intro s i _; rfl
  | cons q qs ih =>
    intro s i hi
    rw [List.foldl_cons, ih (fun r hr => h r (by simp [hr])) _ i hi]
    exact writeCol_preserve s q.1.2 q.2.2 n (h q (by simp)) i hi

theorem writeTable_preserve (s : Store) (t : STable) (vals : Table) (n : Nat)
    (h : ∀ a ∈ addrsOf t, n ≤ a) :
    ∀ i < n, (writeTable s t vals)[i]? = s[i]? := by
  intro i hi
  refine foldl_writeCol_preserve (t.zip vals) n ?_ s i hi
  intro q hq a ha
  apply h
  have hq1 : q.1 ∈ t := (List.of_mem_zip (by simpa using hq)).1
  simp only [addrsOf, List.mem_flatten, List.mem_map]
  exact ⟨q.1.2, ⟨q.1, hq1, rfl⟩, ha⟩

theorem readTable_congr (s s' : Store) (t : STable)
    (h : ∀ a ∈ addrsOf t, s'[a]? = s[a]?) :
    readTable s' t = readTable s t := by
  rw [readTable, readTable]
  apply List.map_congr_left
  intro c hc
  have hmem : ∀ a ∈ c.2, a ∈ addrsOf t := by
    intro a ha
    simp only [addrsOf, List.mem_flatten, List.mem_map]
    exact ⟨c.2, ⟨c, hc, rfl⟩, ha⟩
  have hcol : readCol s' c.2 = readCol s c.2 := by
    rw [readCol, readCol]
    apply List.map_congr_left
    intro a ha
    rw [List.getD_eq_getElem?_getD, List.getD_eq_getElem?_getD, h a (hmem a ha)]
  rw [hcol]

theorem runCopied_preserves (body : Table → Option Table) :
    PreservesCaller (runCopied body) := by
  intro s t s' t' hwf h
  simp only [runCopied] at h
  cases hb : body (readTable (copy_td s t).1 (copy_td s t).2) with
  | none => rw [hb] at h; exact absurd h (by simp)
  | some out =>
    rw [hb] at h
    simp only [Option.map_some', Option.some.injEq, Prod.mk.injEq] at h
    obtain ⟨hs', ht'⟩ := h
    obtain ⟨ext, hext⟩ := allocTable_store (readTable s t) s
    have hfresh : ∀ a ∈ addrsOf (copy_td s t).2, s.length ≤ a :=
      allocTable_fresh (readTable s t) s
    have hpres : ∀ i < s.length, s'[i]? = s[i]? := by
      intro i hi
      rw [← hs']
      rw [writeTable_preserve (copy_td s t).1 (copy_td s t).2 out s.length
        hfresh i hi]
      unfold copy_td
      rw [hext]
      exact List.getElem?_append_left hi
    constructor
    · exact readTable_congr s s' t fun a ha => hpres a (hwf a ha)
    · intro a ha b hb
      have h1 : s.length ≤ a := by rw [← ht'] at ha; exact hfresh a ha
      have h2 : b < s.length := hwf b hb
      omega

/-- C6: each of the four transforms, run under the `copy_td` policy, leaves
the caller's original input table unchanged — it operates on and returns an
independent copy, whose cell storage is disjoint from the original's, so
reassigning cells of the returned table does not alias the original's cell
storage. -/
theorem transforms_non_mutating :
    PreservesCaller st_backshift_idx_fields ∧
    PreservesCaller st_clean_0d_array_fields ∧
    PreservesCaller st_clean_0d_spike_fields ∧
    PreservesCaller st_clean_integer_fields :=
  ⟨runCopied_preserves _, runCopied_preserves _, runCopied_preserves _,
   runCopied_preserves _⟩

/-- Witness for C6: a one-cell store holding `5` under an `idx_a` column; the
index rebase returns a table at fresh address 1, and address 0 still reads
`5`. -/
theorem transforms_non_mutating_witness :
    readTable [Value.num 5, Value.num 4] [("idx_a", [0])] =
      readTable [Value.num 5] [("idx_a", [0])] ∧
    (∀ a ∈ addrsOf [("idx_a", [1])], ∀ b ∈ addrsOf [("idx_a", [0])], a ≠ b) :=
  transforms_non_mutating.1 [Value.num 5] [("idx_a", [0])]
    [Value.num 5, Value.num 4] [("idx_a", [1])] (by decide) (by decide)
